import Mathlib

/-!
Verification of the computational core of `plot.py` (mood-journal statistics).

The script parses mood-journal records, sorts them by date, and computes
several derived series: a moving-average smoothing of scores, note lengths
and keyword counts, a group-by-month aggregation with mean scores, and
sort-and-take rankings.  The definitions below are a shallow embedding of
those functions; Python floats are modelled as rationals, and operations
that can raise a runtime error (division by an empty window's length,
date-format mismatch, indexing an empty score list) return `Option`.
-/

/-- Calendar date at day precision, the result of parsing a "YYYY-MM-DD"
string with `datetime.strptime`. -/
structure Date where
  year : Nat
  month : Nat
  day : Nat
  deriving DecidableEq

/-- The `Mood` dataclass of `plot.py`: a category label, a date, a score and
a free-text note.  The `score` field holds a Python int after parsing and a
float after smoothing; both are modelled as `ℚ`.  Note text is modelled as a
character list so that case-folding and substring tests are elementwise. -/
structure Mood where
  type : String
  date : Date
  score : ℚ
  notes : List Char
  deriving DecidableEq

/-- The window `moods[max(0, i - k) : min(n, i + k)]` that all three
smoothing functions of `plot.py` build at index `i` (`n` the list length,
`k` the window size).  The Python slice `l[start:end]` with
`0 ≤ start ≤ end ≤ n` keeps positions `start, ..., end - 1`; on `Nat`,
truncated subtraction makes `i - k` equal to `max 0 (i - k)`. -/
def windowAt {α : Type} (xs : List α) (k i : Nat) : List α :=
  (xs.drop (i - k)).take (min xs.length (i + k) - (i - k))

/-- A Python loop that appends `f a` for each element and propagates the
first exception: the whole computation fails as soon as one step fails. -/
def optionMapM {α β : Type} (f : α → Option β) : List α → Option (List β)
  | [] => some []
  | a :: t => (f a).bind fun b => (optionMapM f t).map fun bs => b :: bs

/-- `smooth_moods` of `plot.py`: for each index it replaces the score by the
arithmetic mean of scores over the window, keeping category, date and note.
An empty window makes Python divide by zero, so the result is `none`. -/
def smooth_moods (moods : List Mood) (window_size : Nat) : Option (List Mood) :=
  optionMapM (fun i =>
    (moods[i]?).bind fun m =>
      let w := windowAt moods window_size i
      if w.length = 0 then none
      else
        some { type := m.type, date := m.date,
               score := (w.map Mood.score).sum / (w.length : ℚ),
               notes := m.notes })
    (List.range moods.length)

/-- `smooth_ints` of `plot.py`: the same moving average on a bare list of
integers (used for keyword counts), producing rationals. -/
def smooth_ints (ints : List ℤ) (window_size : Nat) : Option (List ℚ) :=
  optionMapM (fun i =>
    let w := windowAt ints window_size i
    if w.length = 0 then none
    else some ((w.sum : ℚ) / (w.length : ℚ)))
    (List.range ints.length)

/-- One insertion step of `group_by`: append `a` to the group keyed `k` if
that key exists, otherwise add a new group `(k, [a])` at the end.  This is
how a Python dict of lists grows, with insertion-ordered keys. -/
def insertGroup {α κ : Type} [DecidableEq κ] (k : κ) (a : α) :
    List (κ × List α) → List (κ × List α)
  | [] => [(k, [a])]
  | (k2, g) :: rest =>
    if k = k2 then (k2, g ++ [a]) :: rest else (k2, g) :: insertGroup k a rest

/-- `seq(...).group_by(f)` of pyfunctional: groups the elements of `l` by
key, keys in first-occurrence order, each group keeping element order. -/
def group_by {α κ : Type} [DecidableEq κ] (f : α → κ) (l : List α) :
    List (κ × List α) :=
  l.foldl (fun acc a => insertGroup (f a) a acc) []

/-- `avg` of `plot.py` applied after mapping the key over the iterable:
`sum(...) / len(...)`, so `none` (ZeroDivisionError) on an empty list. -/
def avg (l : List ℚ) : Option ℚ :=
  if l.length = 0 then none else some (l.sum / (l.length : ℚ))

/-- The grouping key `(x.date.year, x.date.month)` used by `plot_top_moods`
and `plot_worst_moods`. -/
def monthKey (m : Mood) : Nat × Nat :=
  (m.date.year, m.date.month)

/-- Order produced by `sorted(key=lambda x: x[1], reverse=True)`:
mean scores non-increasing. -/
def byMeanDesc (a b : (Nat × Nat) × ℚ) : Prop := b.2 ≤ a.2

/-- Order produced by `sorted(key=lambda x: x[1])`: mean scores
non-decreasing. -/
def byMeanAsc (a b : (Nat × Nat) × ℚ) : Prop := a.2 ≤ b.2

/-- Order produced by `sorted(key=lambda x: len(x.notes), reverse=True)`:
note lengths non-increasing. -/
def byNoteLenDesc (a b : Mood) : Prop := b.notes.length ≤ a.notes.length

instance : DecidableRel byMeanDesc :=
  fun a b => inferInstanceAs (Decidable (b.2 ≤ a.2))

instance : DecidableRel byMeanAsc :=
  fun a b => inferInstanceAs (Decidable (a.2 ≤ b.2))

instance : DecidableRel byNoteLenDesc :=
  fun a b => inferInstanceAs (Decidable (b.notes.length ≤ a.notes.length))

instance : IsTotal ((Nat × Nat) × ℚ) byMeanDesc :=
  ⟨fun a b => le_total b.2 a.2⟩

instance : IsTrans ((Nat × Nat) × ℚ) byMeanDesc :=
  ⟨fun _ _ _ h1 h2 => le_trans h2 h1⟩

instance : IsTotal ((Nat × Nat) × ℚ) byMeanAsc :=
  ⟨fun a b => le_total a.2 b.2⟩

instance : IsTrans ((Nat × Nat) × ℚ) byMeanAsc :=
  ⟨fun _ _ _ h1 h2 => le_trans h1 h2⟩

instance : IsTotal Mood byNoteLenDesc :=
  ⟨fun a b => le_total b.notes.length a.notes.length⟩

instance : IsTrans Mood byNoteLenDesc :=
  ⟨fun _ _ _ h1 h2 => le_trans h2 h1⟩

/-- The series computed by `plot_top_moods`: group by month, take the mean
score of each group, sort by mean descending, keep the first `n`.
Mathlib's `insertionSort` is stable, like Python's `sorted`. -/
def top_moods (moods : List Mood) (n : Nat) : Option (List ((Nat × Nat) × ℚ)) :=
  (optionMapM (fun p => (avg (p.2.map Mood.score)).map fun v => (p.1, v))
      (group_by monthKey moods)).map
    fun l => (List.insertionSort byMeanDesc l).take n

/-- The series computed by `plot_worst_moods`: as `top_moods` but sorted by
mean ascending. -/
def worst_moods (moods : List Mood) (n : Nat) : Option (List ((Nat × Nat) × ℚ)) :=
  (optionMapM (fun p => (avg (p.2.map Mood.score)).map fun v => (p.1, v))
      (group_by monthKey moods)).map
    fun l => (List.insertionSort byMeanAsc l).take n

/-- The series computed by `plot_top_longest_notes`: entries sorted by note
length descending, first `n` kept. -/
def top_longest_notes (moods : List Mood) (n : Nat) : List Mood :=
  (List.insertionSort byNoteLenDesc moods).take n

/-- Numeric value of a decimal digit character. -/
def dval (c : Char) : Nat :=
  c.toNat - 48

/-- The `%m` directive of `strptime`: regex `1[0-2]|0[1-9]|[1-9]`, one or two
digits denoting a month 1..12, returned with the unconsumed rest.  When the
two-digit alternative matches, the second character is a digit, so the
one-digit alternative (which would have to be followed by `-`) can never
rescue a failed continuation: no backtracking is needed. -/
def parseMonthPart : List Char → Option (Nat × List Char)
  | c1 :: c2 :: rest =>
    if (c1 == '1' && (c2 == '0' || c2 == '1' || c2 == '2'))
        || (c1 == '0' && c2.isDigit && !(c2 == '0')) then
      some (10 * dval c1 + dval c2, rest)
    else if c1.isDigit && !(c1 == '0') then some (dval c1, c2 :: rest)
    else none
  | [c1] => if c1.isDigit && !(c1 == '0') then some (dval c1, []) else none
  | [] => none

/-- The `%d` directive of `strptime` applied to the final segment: regex
`3[01]|[12][0-9]|0[1-9]|[1-9]`, matching the whole remaining input (any
character left over is "unconverted data" and a `ValueError`). -/
def parseDayPart : List Char → Option Nat
  | [c1, c2] =>
    if (c1 == '3' && (c2 == '0' || c2 == '1'))
        || ((c1 == '1' || c1 == '2') && c2.isDigit)
        || (c1 == '0' && c2.isDigit && !(c2 == '0')) then
      some (10 * dval c1 + dval c2)
    else none
  | [c1] => if c1.isDigit && !(c1 == '0') then some (dval c1) else none
  | _ => none

/-- Gregorian leap-year rule used by `datetime`. -/
def isLeapYear (y : Nat) : Bool :=
  (y % 4 == 0 && !(y % 100 == 0)) || y % 400 == 0

/-- Number of days of month `m` in year `y`, as validated by the `datetime`
constructor. -/
def daysInMonth (y m : Nat) : Nat :=
  if m == 2 then (if isLeapYear y then 29 else 28)
  else if m == 4 || m == 6 || m == 9 || m == 11 then 30
  else 31

/-- `datetime.strptime(s, "%Y-%m-%d")`: exactly four digits of year, a dash,
a one- or two-digit month, a dash, a one- or two-digit day consuming the rest
of the string; then the `datetime` constructor checks `1 ≤ year` (MINYEAR)
and that the day exists in the month.  Any mismatch raises, i.e. `none`. -/
def parseDate (s : List Char) : Option Date :=
  match s with
  | y1 :: y2 :: y3 :: y4 :: '-' :: rest =>
    if y1.isDigit && y2.isDigit && y3.isDigit && y4.isDigit then
      let y := 1000 * dval y1 + 100 * dval y2 + 10 * dval y3 + dval y4
      match parseMonthPart rest with
      | some (m, '-' :: rest2) =>
        match parseDayPart rest2 with
        | some d => if 1 ≤ y ∧ d ≤ daysInMonth y m then some ⟨y, m, d⟩ else none
        | none => none
      | _ => none
    else none
  | _ => none

/-- One raw input record, the argument of `Mood.from_dict`.  The fields whose
absence or malformedness the spec discusses — the date string and the score
list — are the ones `from_dict` can fail on; a missing `"date"` or
`"scores"` key (Python `dict.get` returning `None`) aborts just like a
malformed value and is subsumed by the failure cases below. -/
structure RawRecord where
  type : String
  date : List Char
  scores : List ℤ
  notes : List Char
  deriving DecidableEq

/-- `Mood.from_dict`: parse the date with the fixed "%Y-%m-%d" format, take
element 0 of the score list (an empty list raises IndexError), keep category
and note verbatim.  Python evaluates the constructor arguments in source
order, so a bad date aborts before the score list is indexed. -/
def from_dict (r : RawRecord) : Option Mood :=
  match parseDate r.date with
  | none => none
  | some d =>
    match r.scores with
    | [] => none
    | s :: _ => some { type := r.type, date := d, score := (s : ℚ), notes := r.notes }

/-- The batch parse `[Mood.from_dict(x) for x in json.loads(...)]`: a Python
list comprehension propagates the first exception, so one bad record makes
the whole batch fail. -/
def parse_batch (rs : List RawRecord) : Option (List Mood) :=
  optionMapM from_dict rs

/-- Python `str.lower` on a character list. -/
def lowerChars (l : List Char) : List Char :=
  l.map Char.toLower

/-- Python `w in text` for strings: `w` occurs contiguously in `text`. -/
def strContains (text w : List Char) : Bool :=
  decide (w <:+: text)

/-- The per-entry count of `plot_days_containing_words`:
`sum([1 for word in words if word in x.notes.lower()])` over a duplicate-free
word list. -/
def countWordsIn (ws : List (List Char)) (notes : List Char) : Nat :=
  (ws.filter fun w => strContains (lowerChars notes) w).length

/-- The series computed by `plot_days_containing_words`: lower-case the
target words, collapse them to a set (iteration order cannot affect the
count, so the set is modelled as the deduplicated list), count per entry how
many target words occur in the lower-cased note, and smooth with k = 14. -/
def days_containing_words (moods : List Mood) (words : List (List Char)) :
    Option (List ℚ) :=
  smooth_ints
    (moods.map fun m => (countWordsIn ((words.map lowerChars).dedup) m.notes : ℤ))
    14

/-- The three entries of the spec's worked smoothing example: dates
2024-01-01, 2024-01-02, 2024-01-03 with scores 1, 5, 3. -/
def exMoods : List Mood :=
  [ { type := "mood", date := ⟨2024, 1, 1⟩, score := 1, notes := [] },
    { type := "mood", date := ⟨2024, 1, 2⟩, score := 5, notes := [] },
    { type := "mood", date := ⟨2024, 1, 3⟩, score := 3, notes := [] } ]

/-- What `smooth_moods` actually returns on `exMoods` with k = 1. -/
def exSmoothed : List Mood :=
  [ { type := "mood", date := ⟨2024, 1, 1⟩, score := 1, notes := [] },
    { type := "mood", date := ⟨2024, 1, 2⟩, score := 3, notes := [] },
    { type := "mood", date := ⟨2024, 1, 3⟩, score := 4, notes := [] } ]


/-- Length of the smoothing window: the boundary formula
`min(n, i + k) - max(0, i - k)` of the spec, for any in-range index. -/
theorem windowAt_length {α : Type} (xs : List α) (k i : Nat) (hi : i < xs.length) :
    (windowAt xs k i).length = min xs.length (i + k) - (i - k) := by
  simp only [windowAt, List.length_take, List.length_drop]
  omega

/-- For a positive window size the window of an in-range index is never
empty. -/
theorem windowAt_length_ne_zero {α : Type} (xs : List α) (k i : Nat)
    (hk : 1 ≤ k) (hi : i < xs.length) : (windowAt xs k i).length ≠ 0 := by
  rw [windowAt_length xs k i hi]
  omega

/-- A successful `optionMapM` yields a list of the input's length. -/
theorem optionMapM_length {α β : Type} {f : α → Option β} {l : List α} :
    ∀ {o : List β}, optionMapM f l = some o → o.length = l.length := by
  induction l with
  | nil =>
    intro o h
    simp only [optionMapM, Option.some.injEq] at h
    simp [← h]
  | cons a t ih =>
    intro o h
    simp only [optionMapM] at h
    cases hfa : f a with
    | none => rw [hfa] at h; simp at h
    | some b =>
      rw [hfa] at h
      cases hbs : optionMapM f t with
      | none => rw [hbs] at h; simp at h
      | some bs =>
        rw [hbs] at h
        simp at h
        simp [← h, ih hbs]

/-- `optionMapM` fails as soon as one element fails. -/
theorem optionMapM_eq_none {α β : Type} {f : α → Option β} {l : List α} {a : α}
    (h : a ∈ l) (w : f a = none) : optionMapM f l = none := by
  induction l with
  | nil => cases h
  | cons b t ih =>
    rcases List.mem_cons.mp h with hb | ht
    · subst hb
      simp [optionMapM, w]
    · cases hfb : f b <;> simp [optionMapM, hfb, ih ht]

/-- `optionMapM` succeeds when every element succeeds. -/
theorem optionMapM_isSome {α β : Type} {f : α → Option β} {l : List α}
    (h : ∀ a ∈ l, (f a).isSome) : (optionMapM f l).isSome := by
  induction l with
  | nil => simp [optionMapM]
  | cons a t ih =>
    obtain ⟨b, hb⟩ := Option.isSome_iff_exists.mp (h a (List.mem_cons_self a t))
    obtain ⟨bs, hbs⟩ :=
      Option.isSome_iff_exists.mp (ih fun x hx => h x (List.mem_cons_of_mem _ hx))
    simp [optionMapM, hb, hbs]

/-- Elementwise description of a successful `optionMapM`. -/
theorem optionMapM_getElem {α β : Type} {f : α → Option β} {l : List α} :
    ∀ {o : List β}, optionMapM f l = some o →
      ∀ (i : Nat) (h1 : i < l.length) (h2 : i < o.length), f l[i] = some o[i] := by
  induction l with
  | nil =>
    intro o _ i h1 _
    simp at h1
  | cons a t ih =>
    intro o h i h1 h2
    simp only [optionMapM] at h
    cases hfa : f a with
    | none => rw [hfa] at h; simp at h
    | some b =>
      rw [hfa] at h
      cases hbs : optionMapM f t with
      | none => rw [hbs] at h; simp at h
      | some bs =>
        rw [hbs] at h
        simp at h
        subst h
        cases i with
        | zero => simpa using hfa
        | succ j =>
          simpa using ih hbs j (by simpa using h1) (by simpa using h2)

/-- C1 (counterexample): on the three example entries with scores 1, 5, 3 and
k = 1, `smooth_moods` does not return the spec's value [3.0, 3.0, 4.0]: the
Python slice excludes index i + k, so the window at index 0 is just [1]. -/
theorem C1_counterexample :
    (smooth_moods exMoods 1).map (List.map Mood.score) ≠ some [3, 3, 4] := by
  simp [smooth_moods, exMoods, windowAt, List.range_succ, optionMapM]

/-- C1 (amended): on entries dated 2024-01-01..2024-01-03 with scores
[1, 5, 3] and k = 1, smoothing yields scores [1.0, 3.0, 4.0]: the window at
index i is the half-open slice [max(0, i - 1), min(3, i + 1)), namely
[1], [1, 5] and [5, 3]. -/
theorem C1_smoothed_scores :
    (smooth_moods exMoods 1).map (List.map Mood.score) = some [1, 3, 4] := by
  simp [smooth_moods, exMoods, windowAt, List.range_succ, optionMapM]
  norm_num

/-- C2 (amended): at every in-range index the window length equals
`min(n, i + k) - max(0, i - k)`, and for window sizes k ≥ 1 that length lies
within [1, 2k + 1].  (For k = 0 the length can be 0, not ≥ 1.) -/
theorem C2_window_size {α : Type} (xs : List α) (k i : Nat) (hi : i < xs.length) :
    (windowAt xs k i).length = min xs.length (i + k) - (i - k)
    ∧ (1 ≤ k → 1 ≤ (windowAt xs k i).length ∧ (windowAt xs k i).length ≤ 2 * k + 1) := by
  have h := windowAt_length xs k i hi
  refine ⟨h, fun hk => ?_⟩
  rw [h]
  omega

/-- C2 (witness): the window-size theorem applied at xs = [1, 5, 3], k = 1,
i = 0. -/
theorem C2_witness :
    0 < ([1, 5, 3] : List ℤ).length
    ∧ ((windowAt ([1, 5, 3] : List ℤ) 1 0).length
          = min ([1, 5, 3] : List ℤ).length (0 + 1) - (0 - 1)
        ∧ (1 ≤ 1 → 1 ≤ (windowAt ([1, 5, 3] : List ℤ) 1 0).length
            ∧ (windowAt ([1, 5, 3] : List ℤ) 1 0).length ≤ 2 * 1 + 1)) :=
  ⟨by decide, C2_window_size ([1, 5, 3] : List ℤ) 1 0 (by decide)⟩

/-- C2 (counterexample): with k = 0, n = 1, i = 0 the window size formula
gives 0, which is not within [1, 2·0 + 1]; the claim's lower bound fails at
k = 0. -/
theorem C2_counterexample :
    (windowAt ([3] : List ℤ) 0 0).length
        = min ([3] : List ℤ).length (0 + 0) - (0 - 0)
    ∧ ¬ 1 ≤ (windowAt ([3] : List ℤ) 0 0).length := by
  decide

/-- C3 (amended): for every window size k ≥ 1, smoothing succeeds and the
output has exactly the input's length.  (For k = 0 and nonempty input the
code divides by zero instead of producing an output.) -/
theorem C3_output_length (xs : List ℤ) (k : Nat) (hk : 1 ≤ k) :
    ∃ o, smooth_ints xs k = some o ∧ o.length = xs.length := by
  have hsome : (smooth_ints xs k).isSome := by
    unfold smooth_ints
    apply optionMapM_isSome
    intro i hi
    rw [List.mem_range] at hi
    have hne := windowAt_length_ne_zero xs k i hk hi
    simp [hne]
  obtain ⟨o, ho⟩ := Option.isSome_iff_exists.mp hsome
  refine ⟨o, ho, ?_⟩
  have hlen := optionMapM_length (show optionMapM _ (List.range xs.length) = some o from ho)
  simpa using hlen

/-- C3 (witness): the length theorem applied at xs = [1, 5, 3], k = 1. -/
theorem C3_witness :
    1 ≤ 1 ∧ ∃ o, smooth_ints [1, 5, 3] 1 = some o
      ∧ o.length = ([1, 5, 3] : List ℤ).length :=
  ⟨le_refl 1, C3_output_length [1, 5, 3] 1 (le_refl 1)⟩

/-- C3 (counterexample): with k = 0 the window of the single index 0 is
empty, so `smooth_ints [1] 0` divides by zero (`none`) rather than returning
a list of length 1. -/
theorem C3_counterexample : smooth_ints [1] 0 = none := by
  simp [smooth_ints, windowAt, List.range_succ, optionMapM]

/-- C4 (counterexample): with k = 0 on the three example entries, smoothing
raises a division by zero (`none`); in particular it does not return the
input unchanged. -/
theorem C4_counterexample :
    smooth_moods exMoods 0 = none ∧ smooth_moods exMoods 0 ≠ some exMoods := by
  have h : smooth_moods exMoods 0 = none := by
    simp [smooth_moods, exMoods, windowAt, List.range_succ, optionMapM]
  exact ⟨h, by simp [h]⟩

/-- C4 (amended): with k = 0 every window `moods[i : min(n, i)]` is empty, so
smoothing fails with a division by zero on every nonempty input; only the
empty input is returned unchanged. -/
theorem C4_k_zero (moods : List Mood) :
    smooth_moods moods 0 = if moods.isEmpty then some [] else none := by
  cases moods with
  | nil => simp [smooth_moods, optionMapM]
  | cons m ms =>
    rw [show (m :: ms).isEmpty = false from rfl, if_neg (by simp)]
    show optionMapM _ (List.range (m :: ms).length) = none
    refine optionMapM_eq_none (a := 0) (List.mem_range.mpr (by simp)) ?_
    simp [windowAt]

/-- Inserting an element grows the total group size by one. -/
theorem insertGroup_sizes {α κ : Type} [DecidableEq κ] (k : κ) (a : α) :
    ∀ gs : List (κ × List α),
      ((insertGroup k a gs).map fun p => p.2.length).sum
        = ((gs.map fun p => p.2.length).sum) + 1 := by
  intro gs
  induction gs with
  | nil => simp [insertGroup]
  | cons q rest ih =>
    obtain ⟨k2, g⟩ := q
    by_cases hkk : k = k2
    · simp [insertGroup, hkk]
      omega
    · simp [insertGroup, hkk, ih]
      omega

/-- Inserting an element keeps every group labelled with its members' key. -/
theorem insertGroup_consistent {α κ : Type} [DecidableEq κ] {f : α → κ} {k : κ}
    {a : α} {gs : List (κ × List α)} (w : f a = k)
    (h : ∀ p ∈ gs, ∀ x ∈ p.2, f x = p.1) :
    ∀ p ∈ insertGroup k a gs, ∀ x ∈ p.2, f x = p.1 := by
  induction gs with
  | nil =>
    intro p hp x hx
    simp only [insertGroup, List.mem_singleton] at hp
    subst hp
    simp only [List.mem_singleton] at hx
    subst hx
    exact w
  | cons q rest ih =>
    obtain ⟨k2, g⟩ := q
    by_cases hkk : k = k2
    · intro p hp x hx
      simp only [insertGroup, if_pos hkk] at hp
      rcases List.mem_cons.mp hp with hp | hp
      · subst hp
        rcases List.mem_append.mp hx with hxg | hxa
        · exact h (k2, g) (List.mem_cons_self _ _) x hxg
        · simp only [List.mem_singleton] at hxa
          subst hxa
          rw [w, hkk]
      · exact h p (List.mem_cons_of_mem _ hp) x hx
    · intro p hp x hx
      simp only [insertGroup, if_neg hkk] at hp
      rcases List.mem_cons.mp hp with hp | hp
      · subst hp
        exact h (k2, g) (List.mem_cons_self _ _) x hx
      · exact ih (fun q hq => h q (List.mem_cons_of_mem _ hq)) p hp x hx

/-- Inserting an element either reuses an existing key or appends the new
key at the end. -/
theorem insertGroup_keys {α κ : Type} [DecidableEq κ] (k : κ) (a : α) :
    ∀ gs : List (κ × List α),
      (insertGroup k a gs).map Prod.fst
        = if k ∈ gs.map Prod.fst then gs.map Prod.fst
          else gs.map Prod.fst ++ [k] := by
  intro gs
  induction gs with
  | nil => simp [insertGroup]
  | cons q rest ih =>
    obtain ⟨k2, g⟩ := q
    by_cases hkk : k = k2
    · simp [insertGroup, hkk]
    · simp only [insertGroup, if_neg hkk, List.map_cons, ih]
      by_cases hm : k ∈ rest.map Prod.fst
      · simp [hm, hkk]
      · simp [hm, hkk]

/-- Inserting an element preserves distinctness of the group keys. -/
theorem insertGroup_keys_nodup {α κ : Type} [DecidableEq κ] {k : κ} {a : α}
    {gs : List (κ × List α)} (h : (gs.map Prod.fst).Nodup) :
    ((insertGroup k a gs).map Prod.fst).Nodup := by
  rw [insertGroup_keys]
  by_cases hm : k ∈ gs.map Prod.fst
  · simpa [hm] using h
  · rw [if_neg hm]
    refine List.Nodup.append h (List.nodup_singleton k) ?_
    intro x hx hxk
    rw [List.mem_singleton] at hxk
    subst hxk
    exact hm hx

/-- The inserted element ends up in some group. -/
theorem insertGroup_mem_self {α κ : Type} [DecidableEq κ] (k : κ) (a : α) :
    ∀ gs : List (κ × List α), ∃ p ∈ insertGroup k a gs, a ∈ p.2 := by
  intro gs
  induction gs with
  | nil => exact ⟨(k, [a]), by simp [insertGroup]⟩
  | cons q rest ih =>
    obtain ⟨k2, g⟩ := q
    by_cases hkk : k = k2
    · exact ⟨(k2, g ++ [a]), by simp [insertGroup, hkk]⟩
    · obtain ⟨p, hp, hap⟩ := ih
      exact ⟨p, by simp [insertGroup, hkk, hp], hap⟩

/-- Elements already grouped stay grouped after an insertion. -/
theorem insertGroup_mem_mono {α κ : Type} [DecidableEq κ] {k : κ} {a x : α}
    {gs : List (κ × List α)} (h : ∃ p ∈ gs, x ∈ p.2) :
    ∃ p ∈ insertGroup k a gs, x ∈ p.2 := by
  induction gs with
  | nil => simp at h
  | cons q rest ih =>
    obtain ⟨k2, g⟩ := q
    obtain ⟨p, hp, hxp⟩ := h
    by_cases hkk : k = k2
    · rcases List.mem_cons.mp hp with hpq | hp
      · subst hpq
        exact ⟨(k2, g ++ [a]), by simp [insertGroup, hkk], by simp [hxp]⟩
      · exact ⟨p, by simp [insertGroup, hkk, hp], hxp⟩
    · rcases List.mem_cons.mp hp with hpq | hp
      · subst hpq
        exact ⟨(k2, g), by simp [insertGroup, hkk], hxp⟩
      · obtain ⟨r, hr, hxr⟩ := ih ⟨p, hp, hxp⟩
        exact ⟨r, by simp [insertGroup, hkk, hr], hxr⟩

/-- Inserting an element never creates an empty group. -/
theorem insertGroup_ne_nil {α κ : Type} [DecidableEq κ] {k : κ} {a : α}
    {gs : List (κ × List α)} (h : ∀ p ∈ gs, p.2 ≠ []) :
    ∀ p ∈ insertGroup k a gs, p.2 ≠ [] := by
  induction gs with
  | nil =>
    intro p hp
    simp only [insertGroup, List.mem_singleton] at hp
    subst hp
    simp
  | cons q rest ih =>
    obtain ⟨k2, g⟩ := q
    by_cases hkk : k = k2
    · intro p hp
      simp only [insertGroup, if_pos hkk] at hp
      rcases List.mem_cons.mp hp with hp | hp
      · subst hp
        simp
      · exact h p (List.mem_cons_of_mem _ hp)
    · intro p hp
      simp only [insertGroup, if_neg hkk] at hp
      rcases List.mem_cons.mp hp with hp | hp
      · subst hp
        exact h (k2, g) (List.mem_cons_self _ _)
      · exact ih (fun q hq => h q (List.mem_cons_of_mem _ hq)) p hp

/-- Grouping accumulates: total group size grows by the number of folded
elements. -/
theorem group_by_sizes_aux {α κ : Type} [DecidableEq κ] (f : α → κ) :
    ∀ (l : List α) (g : List (κ × List α)),
      ((l.foldl (fun acc a => insertGroup (f a) a acc) g).map fun p => p.2.length).sum
        = ((g.map fun p => p.2.length).sum) + l.length := by
  intro l
  induction l with
  | nil => intro g; simp
  | cons a t ih =>
    intro g
    simp only [List.foldl_cons]
    rw [ih, insertGroup_sizes]
    simp only [List.length_cons]
    omega

/-- Grouping keeps every group labelled with its members' key. -/
theorem group_by_consistent_aux {α κ : Type} [DecidableEq κ] (f : α → κ) :
    ∀ (l : List α) (g : List (κ × List α)),
      (∀ p ∈ g, ∀ x ∈ p.2, f x = p.1) →
      ∀ p ∈ l.foldl (fun acc a => insertGroup (f a) a acc) g, ∀ x ∈ p.2, f x = p.1 := by
  intro l
  induction l with
  | nil => intro g h; simpa using h
  | cons a t ih =>
    intro g h
    simp only [List.foldl_cons]
    exact ih _ (insertGroup_consistent rfl h)

/-- Grouping keeps the keys distinct. -/
theorem group_by_keys_nodup_aux {α κ : Type} [DecidableEq κ] (f : α → κ) :
    ∀ (l : List α) (g : List (κ × List α)), (g.map Prod.fst).Nodup →
      ((l.foldl (fun acc a => insertGroup (f a) a acc) g).map Prod.fst).Nodup := by
  intro l
  induction l with
  | nil => intro g h; simpa using h
  | cons a t ih =>
    intro g h
    simp only [List.foldl_cons]
    exact ih _ (insertGroup_keys_nodup h)

/-- Every folded element (and every previously grouped one) lands in some
group. -/
theorem group_by_mem_aux {α κ : Type} [DecidableEq κ] (f : α → κ) :
    ∀ (l : List α) (g : List (κ × List α)) (x : α),
      (x ∈ l ∨ ∃ p ∈ g, x ∈ p.2) →
      ∃ p ∈ l.foldl (fun acc a => insertGroup (f a) a acc) g, x ∈ p.2 := by
  intro l
  induction l with
  | nil =>
    intro g x h
    simpa using h.resolve_left (by simp)
  | cons a t ih =>
    intro g x h
    simp only [List.foldl_cons]
    apply ih
    rcases h with hx | hx
    · rcases List.mem_cons.mp hx with rfl | hx
      · exact Or.inr (insertGroup_mem_self (f x) x g)
      · exact Or.inl hx
    · exact Or.inr (insertGroup_mem_mono hx)

/-- Grouping never produces an empty group. -/
theorem group_by_ne_nil {α κ : Type} [DecidableEq κ] (f : α → κ) (l : List α) :
    ∀ p ∈ group_by f l, p.2 ≠ [] := by
  suffices h : ∀ (l2 : List α) (g : List (κ × List α)), (∀ p ∈ g, p.2 ≠ []) →
      ∀ p ∈ l2.foldl (fun acc a => insertGroup (f a) a acc) g, p.2 ≠ [] by
    exact h l [] (by simp)
  intro l2
  induction l2 with
  | nil => intro g h; simpa using h
  | cons a t ih =>
    intro g h
    simp only [List.foldl_cons]
    exact ih _ (insertGroup_ne_nil h)

/-- In a group list with distinct keys, equal keys mean equal entries. -/
theorem eq_of_nodup_keys {κ γ : Type} {gs : List (κ × γ)}
    (hn : (gs.map Prod.fst).Nodup) {p q : κ × γ}
    (hp : p ∈ gs) (hq : q ∈ gs) (hk : p.1 = q.1) : p = q := by
  induction gs with
  | nil => cases hp
  | cons r rest ih =>
    rw [List.map_cons, List.nodup_cons] at hn
    rcases List.mem_cons.mp hp with hpr | hp2 <;>
      rcases List.mem_cons.mp hq with hqr | hq2
    · rw [hpr, hqr]
    · exfalso
      apply hn.1
      rw [← hpr, hk]
      exact List.mem_map_of_mem Prod.fst hq2
    · exfalso
      apply hn.1
      rw [← hqr, ← hk]
      exact List.mem_map_of_mem Prod.fst hp2
    · exact ih hn.2 hp2 hq2

/-- C6: monthly aggregation partitions the entries: group sizes sum to the
entry count, every entry lands in a group, each group's members carry the
group's (year, month) key, the keys are pairwise distinct, and the group
containing a given entry occurrence is unique. -/
theorem C6_partition (moods : List Mood) :
    ((group_by monthKey moods).map fun p => p.2.length).sum = moods.length
    ∧ (∀ m ∈ moods, ∃ p ∈ group_by monthKey moods, m ∈ p.2)
    ∧ (∀ p ∈ group_by monthKey moods, ∀ m ∈ p.2, monthKey m = p.1)
    ∧ ((group_by monthKey moods).map Prod.fst).Nodup
    ∧ (∀ p ∈ group_by monthKey moods, ∀ q ∈ group_by monthKey moods,
        ∀ m, m ∈ p.2 → m ∈ q.2 → p = q) := by
  have hcons := group_by_consistent_aux monthKey moods [] (by simp)
  have hnd := group_by_keys_nodup_aux monthKey moods [] (by simp)
  refine ⟨?_, ?_, hcons, hnd, ?_⟩
  · simpa using group_by_sizes_aux monthKey moods []
  · intro m hm
    exact group_by_mem_aux monthKey moods [] m (Or.inl hm)
  · intro p hp q hq m hmp hmq
    have hk : p.1 = q.1 := by
      rw [← hcons p hp m hmp, ← hcons q hq m hmq]
    exact eq_of_nodup_keys hnd hp hq hk

/-- Per-group averaging succeeds on the nonempty groups produced by
`group_by` and keeps one ranked item per group. -/
theorem ranked_months_exist (moods : List Mood) :
    ∃ o, optionMapM (fun p => (avg (p.2.map Mood.score)).map fun v => (p.1, v))
          (group_by monthKey moods) = some o
        ∧ o.length = (group_by monthKey moods).length := by
  have hgs := group_by_ne_nil monthKey moods
  have hsome : (optionMapM (fun p => (avg (p.2.map Mood.score)).map fun v => (p.1, v))
      (group_by monthKey moods)).isSome := by
    apply optionMapM_isSome
    intro p hp
    have hne : p.2 ≠ [] := hgs p hp
    simp [avg, List.length_eq_zero, hne]
  obtain ⟨o, ho⟩ := Option.isSome_iff_exists.mp hsome
  exact ⟨o, ho, optionMapM_length ho⟩

/-- C5: each ranking returns exactly `min n (number of ranked items)` items
— months with a mean score for the two month rankings, entries for the
longest-note ranking — and the result is sorted in the specified direction:
mean score non-increasing for top months, non-decreasing for worst months,
note length non-increasing for longest notes. -/
theorem C5_rankings (moods : List Mood) (n : Nat) :
    (∃ l, top_moods moods n = some l
        ∧ l.length = min n (group_by monthKey moods).length
        ∧ l.Sorted byMeanDesc)
    ∧ (∃ l, worst_moods moods n = some l
        ∧ l.length = min n (group_by monthKey moods).length
        ∧ l.Sorted byMeanAsc)
    ∧ ((top_longest_notes moods n).length = min n moods.length
        ∧ (top_longest_notes moods n).Sorted byNoteLenDesc) := by
  obtain ⟨o, ho, holen⟩ := ranked_months_exist moods
  refine ⟨⟨(List.insertionSort byMeanDesc o).take n, ?_, ?_, ?_⟩,
          ⟨(List.insertionSort byMeanAsc o).take n, ?_, ?_, ?_⟩, ?_, ?_⟩
  · simp [top_moods, ho]
  · simp [List.length_take, List.length_insertionSort, holen]
  · exact List.Pairwise.sublist (List.take_sublist n _)
      (List.sorted_insertionSort byMeanDesc o)
  · simp [worst_moods, ho]
  · simp [List.length_take, List.length_insertionSort, holen]
  · exact List.Pairwise.sublist (List.take_sublist n _)
      (List.sorted_insertionSort byMeanAsc o)
  · simp [top_longest_notes, List.length_take, List.length_insertionSort]
  · exact List.Pairwise.sublist (List.take_sublist n _)
      (List.sorted_insertionSort byNoteLenDesc moods)

/-- C7: parsing a raw record keeps only the first element of the score list
and requires the date to match the fixed "YYYY-MM-DD" format; a date that
does not parse makes the record fail (`none`), and one failing record makes
the whole batch fail. -/
theorem C7_parse :
    (∀ (r : RawRecord) (d : Date) (s : ℤ) (t : List ℤ),
        parseDate r.date = some d → r.scores = s :: t →
        from_dict r
          = some { type := r.type, date := d, score := (s : ℚ), notes := r.notes })
    ∧ (∀ r : RawRecord, parseDate r.date = none → from_dict r = none)
    ∧ (∀ (rs : List RawRecord) (r : RawRecord), r ∈ rs → from_dict r = none →
        parse_batch rs = none) := by
  refine ⟨?_, ?_, ?_⟩
  · intro r d s t h1 h2
    simp [from_dict, h1, h2]
  · intro r h
    simp [from_dict, h]
  · intro rs r hr h
    exact optionMapM_eq_none hr h

/-- C7 (witness): the parse theorem applied to a record dated 2024-01-02
with scores [7, 9] (parsed, score 7, 9 discarded), to a record dated
2024-13-01 (month 13 fails), and to the two-record batch (fails). -/
theorem C7_witness :
    (parseDate ("2024-01-02".toList) = some ⟨2024, 1, 2⟩
      ∧ from_dict ⟨"mood", "2024-01-02".toList, [7, 9], []⟩
          = some { type := "mood", date := ⟨2024, 1, 2⟩, score := (7 : ℚ),
                   notes := [] })
    ∧ (parseDate ("2024-13-01".toList) = none
      ∧ from_dict ⟨"mood", "2024-13-01".toList, [7], []⟩ = none)
    ∧ parse_batch [⟨"mood", "2024-01-02".toList, [7, 9], []⟩,
        ⟨"mood", "2024-13-01".toList, [7], []⟩] = none := by
  refine ⟨⟨by decide, ?_⟩, ⟨by decide, ?_⟩, ?_⟩
  · exact C7_parse.1 ⟨"mood", "2024-01-02".toList, [7, 9], []⟩ ⟨2024, 1, 2⟩ 7 [9]
      (by decide) (by decide)
  · exact C7_parse.2.1 ⟨"mood", "2024-13-01".toList, [7], []⟩ (by decide)
  · exact C7_parse.2.2 _ ⟨"mood", "2024-13-01".toList, [7], []⟩ (by decide)
      (C7_parse.2.1 ⟨"mood", "2024-13-01".toList, [7], []⟩ (by decide))

/-- Deduplication commutes with filtering. -/
theorem filter_dedup {γ : Type} [DecidableEq γ] (p : γ → Bool) :
    ∀ l : List γ, l.dedup.filter p = (l.filter p).dedup := by
  intro l
  induction l with
  | nil => simp
  | cons a l ih =>
    by_cases hm : a ∈ l
    · rw [List.dedup_cons_of_mem hm]
      by_cases hp : p a
      · rw [List.filter_cons_of_pos hp,
          List.dedup_cons_of_mem (List.mem_filter.mpr ⟨hm, hp⟩)]
        exact ih
      · rw [List.filter_cons_of_neg hp]
        exact ih
    · rw [List.dedup_cons_of_not_mem hm]
      by_cases hp : p a
      · rw [List.filter_cons_of_pos hp, List.filter_cons_of_pos hp,
          List.dedup_cons_of_not_mem (fun hc => hm (List.mem_filter.mp hc).1), ih]
      · rw [List.filter_cons_of_neg hp, List.filter_cons_of_neg hp]
        exact ih

/-- The per-entry word count equals the number of distinct target words
occurring in the note. -/
theorem count_eq_card (l : List (List Char)) (s : List Char) :
    countWordsIn l.dedup s
      = (l.toFinset.filter fun w => w <:+: lowerChars s).card := by
  have h1 : (l.toFinset.filter fun w => w <:+: lowerChars s)
      = (l.filter fun w => strContains (lowerChars s) w).toFinset := by
    rw [List.toFinset_filter]
    apply Finset.filter_congr
    intro w _
    simp [strContains]
  rw [countWordsIn, h1, List.card_toFinset, filter_dedup]

/-- C8: for every target word list and entry list, the pipeline counts per
entry how many distinct case-folded target words occur as substrings of the
case-folded note, and smooths that integer sequence with window size 14. -/
theorem C8_keyword_counts (moods : List Mood) (words : List (List Char)) :
    days_containing_words moods words
      = smooth_ints
          (moods.map fun m =>
            (((words.map lowerChars).toFinset.filter
                fun w => w <:+: lowerChars m.notes).card : ℤ))
          14 := by
  simp only [days_containing_words]
  congr 1

/-- C9: a successful smoothing returns one entry per input entry, keeping
the category label, date and note text of the input entry at the same index
and replacing only the score by the window mean.  (The input list itself is
a value and is never mutated; the output entries are new.) -/
theorem C9_smooth_preserves (moods : List Mood) (k : Nat) (o : List Mood)
    (h : smooth_moods moods k = some o) :
    o.length = moods.length
    ∧ ∀ (i : Nat) (h1 : i < moods.length) (h2 : i < o.length),
        o[i].type = moods[i].type ∧ o[i].date = moods[i].date
        ∧ o[i].notes = moods[i].notes
        ∧ o[i].score = ((windowAt moods k i).map Mood.score).sum
            / ((windowAt moods k i).length : ℚ) := by
  have h' : optionMapM (fun i => (moods[i]?).bind fun m =>
      let w := windowAt moods k i
      if w.length = 0 then none
      else some { type := m.type, date := m.date,
                  score := (w.map Mood.score).sum / (w.length : ℚ),
                  notes := m.notes }) (List.range moods.length) = some o := h
  refine ⟨by simpa using optionMapM_length h', ?_⟩
  intro i h1 h2
  have hf := optionMapM_getElem h' i (by simpa using h1) h2
  rw [List.getElem_range, List.getElem?_eq_getElem h1] at hf
  simp only [Option.some_bind] at hf
  by_cases hw : (windowAt moods k i).length = 0
  · rw [if_pos hw] at hf
    simp at hf
  · rw [if_neg hw] at hf
    have ho := (Option.some.inj hf).symm
    rw [ho]
    exact ⟨rfl, rfl, rfl, rfl⟩

/-- C9 (witness): the preservation theorem applied to the three example
entries with k = 1 and their concrete smoothing. -/
theorem C9_witness :
    smooth_moods exMoods 1 = some exSmoothed
    ∧ (exSmoothed.length = exMoods.length
      ∧ ∀ (i : Nat) (h1 : i < exMoods.length) (h2 : i < exSmoothed.length),
          exSmoothed[i].type = exMoods[i].type
          ∧ exSmoothed[i].date = exMoods[i].date
          ∧ exSmoothed[i].notes = exMoods[i].notes
          ∧ exSmoothed[i].score = ((windowAt exMoods 1 i).map Mood.score).sum
              / ((windowAt exMoods 1 i).length : ℚ)) := by
  have h : smooth_moods exMoods 1 = some exSmoothed := by
    norm_num [smooth_moods, exMoods, exSmoothed, windowAt, List.range_succ,
      optionMapM]
  exact ⟨h, C9_smooth_preserves exMoods 1 exSmoothed h⟩

/-- C10: for k ≥ 1 the window at an in-range index spans
[max(0, i - k), min(n, i + k)), which contains index i, so the window holds
the i-th element, is nonempty, and the mean's division by the window length
never divides by zero: smoothing succeeds. -/
theorem C10_window_contains (xs : List ℤ) (k i : Nat) (hk : 1 ≤ k)
    (hi : i < xs.length) :
    ((i - k ≤ i ∧ i < min xs.length (i + k))
      ∧ xs[i] ∈ windowAt xs k i
      ∧ 0 < (windowAt xs k i).length)
    ∧ (smooth_ints xs k).isSome := by
  have hlen := windowAt_length xs k i hi
  have hb2 : i < min xs.length (i + k) := by omega
  refine ⟨⟨⟨by omega, hb2⟩, ?_, by omega⟩, ?_⟩
  · have hq : (windowAt xs k i)[i - (i - k)]? = some xs[i] := by
      show ((xs.drop (i - k)).take (min xs.length (i + k) - (i - k)))[i - (i - k)]?
        = some xs[i]
      rw [List.getElem?_take_of_lt (by omega), List.getElem?_drop,
        show (i - k) + (i - (i - k)) = i by omega, List.getElem?_eq_getElem hi]
    exact List.getElem?_mem hq
  · unfold smooth_ints
    apply optionMapM_isSome
    intro j hj
    rw [List.mem_range] at hj
    have hne := windowAt_length_ne_zero xs k j hk hj
    simp [hne]

/-- C10 (witness): the containment theorem applied at xs = [1, 5, 3], k = 1,
i = 0. -/
theorem C10_witness :
    (1 ≤ 1 ∧ 0 < ([1, 5, 3] : List ℤ).length)
    ∧ (((0 - 1 ≤ 0 ∧ 0 < min ([1, 5, 3] : List ℤ).length (0 + 1))
        ∧ ([1, 5, 3] : List ℤ)[0] ∈ windowAt ([1, 5, 3] : List ℤ) 1 0
        ∧ 0 < (windowAt ([1, 5, 3] : List ℤ) 1 0).length)
      ∧ (smooth_ints [1, 5, 3] 1).isSome) :=
  ⟨⟨le_refl 1, by decide⟩, C10_window_contains [1, 5, 3] 1 0 (le_refl 1) (by decide)⟩
